import Mathlib

/-!
Verification development for the umesao knowledge-card pipeline.

The Go sources are shallowly embedded: text is `List Char` (Go strings are
handled rune-wise by the functions modelled here), database tables are lists
of row structures, the pgvector distance computed by the SQL operator
`embedding <-> $1` is an abstract function from a chunk row to `ℚ`, and the
SQL `ORDER BY distance ASC` / Go `sort.Slice` are modelled with
`List.insertionSort` (a sorted permutation, which is all the properties
below depend on).  External collaborators (goldmark's markdown parser, the
SHA-256 routine from crypto/sha256, the OpenAI embedding endpoint, Azure's
OCR fetch) are parameters of the functions that call them.
-/

namespace Umesao

/-- Text as a list of runes (Go `[]rune`). -/
abbrev Str := List Char

/-! ### pkg/common/chunk.go — sentence splitting and chunk extraction -/

/-- The delimiter class of the regexp `[。！？!?.]` in `splitSentences`. -/
def isSentenceDelim (c : Char) : Bool :=
  c = '。' || c = '！' || c = '？' || c = '!' || c = '?' || c = '.'

/-- `regexp.Split(text, -1)` for the single-character pattern above: cut the
text at every delimiter occurrence, keeping empty pieces. -/
def splitOnDelims : Str → List Str
  | [] => [[]]
  | c :: cs =>
    let r := splitOnDelims cs
    if isSentenceDelim c then [] :: r
    else
      match r with
      | [] => [[c]]
      | p :: ps => (c :: p) :: ps

/-- Go `unicode.IsSpace` on the characters that matter here. -/
def isSpaceChar (c : Char) : Bool := c.isWhitespace

/-- Go `strings.TrimSpace`: drop whitespace from both ends. -/
def trimSpace (s : Str) : Str :=
  ((s.dropWhile isSpaceChar).reverse.dropWhile isSpaceChar).reverse

/-- `splitSentences` from pkg/common/chunk.go: split on the delimiters,
trim each piece, keep the non-empty ones. -/
def splitSentences (t : Str) : List Str :=
  (splitOnDelims t).filterMap (fun s =>
    let s' := trimSpace s
    if s' = [] then none else some s')

/-- The blank test `strings.TrimSpace(chunks[i]) == ""` used by uploadImpl. -/
def isBlank (s : Str) : Bool := trimSpace s = []

/-- A heading or paragraph node of the goldmark AST, already flattened to the
concatenation of its `ast.Text` children, in document-traversal order.  The
parser itself (goldmark) is external; functions that parse take a
`Str → List MdBlock` parameter standing for `goldmark.DefaultParser().Parse`. -/
inductive MdBlock
  | heading (txt : Str)
  | paragraph (txt : Str)
deriving DecidableEq

/-- The `ast.Walk` body of `ExtractChunks`: every heading contributes its
flattened text as one chunk, every paragraph contributes its sentences. -/
def walkChunks : List MdBlock → List Str
  | [] => []
  | .heading t :: bs => t :: walkChunks bs
  | .paragraph t :: bs => splitSentences t ++ walkChunks bs

/-- `ExtractChunks(content, method)` from pkg/common/chunk.go.  The function
first appends `content` to the chunk slice; the `"ocr"` branch then appends
the walk's chunks, while the `"vision"` branch REASSIGNS the slice to
`splitSentences(content)` (discarding the whole-document chunk), and any
other method leaves just the whole-document chunk. -/
def ExtractChunks (content : Str) (method : String) (parse : Str → List MdBlock) : List Str :=
  let chunks := [content]
  if method = "ocr" then chunks ++ walkChunks (parse content)
  else if method = "vision" then splitSentences content
  else chunks

/-- The one-argument `ExtractChunks(markdown)` variant used by editImpl:
whole document first, then the structural walk, unconditionally. -/
def ExtractChunksEdit (markdown : Str) (parse : Str → List MdBlock) : List Str :=
  markdown :: walkChunks (parse markdown)

/-! ### schema.sql rows and the queries of query.sql -/

/-- One row of `markdown_files` (card_id, ver, hash). -/
structure MarkdownRow where
  card_id : Int
  ver : Int
  hash : String
deriving DecidableEq

/-- One row of `chunks` (card_id, ver, idx, model, text); the embedding
column is represented indirectly by the distance function passed to search. -/
structure ChunkRow where
  card_id : Int
  ver : Int
  idx : Int
  model : String
  text : Str
deriving DecidableEq

/-- The relational state the queries range over. -/
structure DB where
  markdown_files : List MarkdownRow
  chunks : List ChunkRow
deriving DecidableEq

/-- The versions `markdown_files` stores for one card. -/
def cardVersions (mds : List MarkdownRow) (c : Int) : List Int :=
  (mds.filter (fun m => m.card_id = c)).map (fun m => m.ver)

/-- `MAX(ver) ... GROUP BY card_id` evaluated at one card: the `max_ver`
column of the `latest_versions` CTE, `none` when the card has no row. -/
def maxVer (mds : List MarkdownRow) (c : Int) : Option Int :=
  (cardVersions mds c).max?

/-- Query `GetLatestMarkdownVersion` (`ORDER BY ver DESC LIMIT 1`):
errors (none) when the card has no markdown row. -/
def GetLatestMarkdownVersion (db : DB) (c : Int) : Option Int :=
  maxVer db.markdown_files c

/-- A row of the `SearchLatestDistance` result set, after lookup.go has
decoded the distance column (Go type `SearchResult`). -/
structure SearchResult where
  CardID : Int
  Ver : Int
  Idx : Int
  Model : String
  Text : Str
  Distance : ℚ
deriving DecidableEq

/-- Ascending-distance comparison used by `ORDER BY distance ASC` and by
`sort.Slice(results, ...)`. -/
def distLE (a b : SearchResult) : Prop := a.Distance ≤ b.Distance

instance : DecidableRel distLE := fun a b => inferInstanceAs (Decidable (a.Distance ≤ b.Distance))

instance : IsTotal SearchResult distLE := ⟨fun a b => le_total a.Distance b.Distance⟩

instance : IsTrans SearchResult distLE := ⟨fun _ _ _ h₁ h₂ => le_trans h₁ h₂⟩

/-- Query `SearchLatestDistance`: join `chunks` with the per-card maximum
version of `markdown_files`, order ascending by the distance to the query
embedding, truncate to the limit.  `dist` abstracts `embedding <-> $1`. -/
def SearchLatestDistance (db : DB) (dist : ChunkRow → ℚ) (limit : Nat) : List SearchResult :=
  let candidates := db.chunks.filter
    (fun ch => maxVer db.markdown_files ch.card_id = some ch.ver)
  let scored := candidates.map
    (fun ch => SearchResult.mk ch.card_id ch.ver ch.idx ch.model ch.text (dist ch))
  (List.insertionSort distLE scored).take limit

/-- The runtime type an `interface{}` distance value decodes to in
lookup.go's type switch. -/
inductive PGNum
  | f32 (x : ℚ)
  | f64 (x : ℚ)
  | other (tag : String)
deriving DecidableEq

/-- A raw `SearchLatestDistance` row before the type switch. -/
structure RawResult where
  CardID : Int
  Ver : Int
  Idx : Int
  Model : String
  Text : Str
  Distance : PGNum
deriving DecidableEq

/-- The type switch of lookup.go: float32 and float64 pass through, any
other runtime type is logged and replaced by distance 0. -/
def decodeDistance : PGNum → ℚ
  | .f32 x => x
  | .f64 x => x
  | .other _ => 0

/-- The conversion loop of lookup.go: total, never fails. -/
def convertResults (rs : List RawResult) : List SearchResult :=
  rs.map (fun r => SearchResult.mk r.CardID r.Ver r.Idx r.Model r.Text (decodeDistance r.Distance))

/-- `sort.Slice(results, func(i, j) { return results[i].Distance < results[j].Distance })`. -/
def sortResults (rs : List SearchResult) : List SearchResult :=
  List.insertionSort distLE rs

/-- The display loop of lookup.go: emit a result for the first occurrence of
each card_id, drop later occurrences of an already-seen card. -/
def dedupByCard : List SearchResult → List Int → List SearchResult
  | [], _ => []
  | r :: rest, seen =>
    if r.CardID ∈ seen then dedupByCard rest seen
    else r :: dedupByCard rest (r.CardID :: seen)

/-- The failure modes of lookupImpl before results are displayed. -/
inductive LookupError
  | emptyCorpus
  | noMatch
deriving DecidableEq

/-- lookupImpl's query phase: fail when `SELECT COUNT(*) FROM chunks` is 0,
then run `SearchLatestDistance` with limit 10 and fail when it returns no
rows. -/
def lookupSearch (db : DB) (dist : ChunkRow → ℚ) : Except LookupError (List SearchResult) :=
  if db.chunks.length = 0 then .error .emptyCorpus
  else if (SearchLatestDistance db dist 10).length = 0 then .error .noMatch
  else .ok (SearchLatestDistance db dist 10)

/-- `string([]rune(result.Text)[:10])`: succeeds only when the text has at
least 10 runes, otherwise the slice is out of range and the program panics
(`none`). -/
def firstTenRunes (s : Str) : Option Str :=
  if s.length < 10 then none else some (s.take 10)

/-- The display loop with its panic behaviour: walk the sorted results, skip
already-seen cards, print the first 10 runes of each emitted result; a panic
anywhere aborts the lookup (`none`). -/
def displayLoop : List SearchResult → List Int → Option (List Str)
  | [], _ => some []
  | r :: rest, seen =>
    if r.CardID ∈ seen then displayLoop rest seen
    else
      match firstTenRunes r.Text with
      | none => none
      | some s => (displayLoop rest (r.CardID :: seen)).map (fun l => s :: l)

/-! ### upload.go / editImpl storage loops -/

/-- The embedding model name hardcoded at every call site. -/
def embeddingModel : String := "text-embedding-3-small"

/-- The storage loop of uploadImpl (`for i, embedding := range embeddings`):
the external embedding provider returns one vector per chunk in input order,
so the loop runs over the chunk list with its indices; a chunk whose text is
blank after TrimSpace is skipped with `continue`. -/
def uploadStoreRows (c v : Int) : Nat → List Str → List ChunkRow
  | _, [] => []
  | i, s :: rest =>
    if isBlank s then uploadStoreRows c v (i + 1) rest
    else ChunkRow.mk c v (Int.ofNat i) embeddingModel s :: uploadStoreRows c v (i + 1) rest

/-- The storage loop of editImpl: identical iteration but with no blank
filter — every chunk is stored. -/
def editStoreRows (c v : Int) : Nat → List Str → List ChunkRow
  | _, [] => []
  | i, s :: rest =>
    ChunkRow.mk c v (Int.ofNat i) embeddingModel s :: editStoreRows c v (i + 1) rest

/-- editImpl's database effect.  `downloaded` is the latest version's content
fetched from the object store, `edited` the content after the editor ran, and
`hash` abstracts `CalculateFileHash` (SHA-256, lower-case hex).  When the two
hashes agree the command exits cleanly with nothing written; otherwise it
inserts one markdown row at version latest+1 and appends the new version's
chunk rows, leaving every existing row untouched. -/
def editImpl (db : DB) (cardID : Int) (downloaded edited : Str)
    (hash : Str → String) (parse : Str → List MdBlock) : Except String DB :=
  match GetLatestMarkdownVersion db cardID with
  | none => .error "error getting latest markdown version"
  | some latestVersion =>
    if hash downloaded = hash edited then .ok db
    else
      let newVersion := latestVersion + 1
      let chunks := ExtractChunksEdit edited parse
      .ok (DB.mk
        (db.markdown_files ++ [MarkdownRow.mk cardID newVersion (hash edited)])
        (db.chunks ++ editStoreRows cardID newVersion 0 chunks))

/-! ### AzureOCR's poll-with-retry loop (part of pkg/common) -/

/-- The `for { time.Sleep(3s); ocrResult, err = AzureOCRFetchResult(...) }`
loop of `AzureOCR`.  `fetch i` is the outcome of the i-th fetch (an external
HTTP call).  The loop keeps the last fetch outcome; on an error it retries
only while `attempt > 0`, decrementing; otherwise it breaks.  Returns the
last outcome together with the final value of `attempt`. -/
def pollLoop (fetch : Nat → Except String Str) (i : Nat) (attempt : Int) :
    Except String Str × Int :=
  match fetch i with
  | .ok s => (.ok s, attempt)
  | .error e =>
    if h : attempt > 0 then pollLoop fetch (i + 1) (attempt - 1)
    else (.error e, attempt)
termination_by attempt.toNat
decreasing_by
  simp_wf
  omega

/-- `AzureOCR` after its request phase: run the poll loop with
`attempt := 3`; afterwards the code returns an error only under
`attempt < 0`, and otherwise returns `ocrResult` with a nil error — on a
failed final fetch `ocrResult` is the empty string. -/
def AzureOCR (fetch : Nat → Except String Str) : Except String Str :=
  let r := pollLoop fetch 0 3
  if r.2 < 0 then .error "too many failed OCR fetch attempts"
  else
    match r.1 with
    | .ok s => .ok s
    | .error _ => .ok []

/-! ### Spec-side counting functions (used to state the chunk-count claims) -/

/-- Whether a block is a heading. -/
def isHeadingBlock : MdBlock → Bool
  | .heading _ => true
  | .paragraph _ => false

/-- N: the number of heading nodes the walk visits. -/
def countHeadings (bs : List MdBlock) : Nat := bs.countP isHeadingBlock

/-- The spec's sentence count for one paragraph text: the number of pieces
cut at the delimiters that are still non-blank after trimming. -/
def sentenceCount (t : Str) : Nat :=
  (splitOnDelims t).countP (fun s => !(trimSpace s).isEmpty)

/-- S: total non-blank-after-trim sentences over all paragraph blocks. -/
def totalSentences (bs : List MdBlock) : Nat :=
  (bs.map (fun b => match b with
    | .paragraph t => sentenceCount t
    | .heading _ => 0)).sum

/-! ### Concrete states and fixtures used by witnesses and counterexamples -/

/-- A store with one card whose single version carries one chunk. -/
def dbOneChunk : DB :=
  DB.mk [MarkdownRow.mk 1 1 "h1"] [ChunkRow.mk 1 1 0 embeddingModel "some text!".data]

/-- A store where the only chunk belongs to version 1 of card 1 while
`markdown_files` already holds a version 2 for that card (the state left
behind when an edit fails between its markdown insert and its chunk
inserts): the chunk count is non-zero, yet no chunk is at a latest
version. -/
def dbStaleChunkOnly : DB :=
  DB.mk [MarkdownRow.mk 1 1 "h1", MarkdownRow.mk 1 2 "h2"]
    [ChunkRow.mk 1 1 0 embeddingModel "some text!".data]

/-- The spec's raw top-K hit fixture [(cardA,0.1),(cardB,0.2),(cardA,0.3)]. -/
def exampleHits : List SearchResult :=
  [SearchResult.mk 1 1 0 embeddingModel "cardA text".data 0.1,
   SearchResult.mk 2 1 0 embeddingModel "cardB text".data 0.2,
   SearchResult.mk 1 1 1 embeddingModel "cardA more".data 0.3]

/-- The deduplicated ranking the spec expects for `exampleHits`. -/
def exampleRanked : List SearchResult :=
  [SearchResult.mk 1 1 0 embeddingModel "cardA text".data 0.1,
   SearchResult.mk 2 1 0 embeddingModel "cardB text".data 0.2]

/-- A small distance-ascending hit list with kernel-computable distances. -/
def sortedHitsW : List SearchResult :=
  [SearchResult.mk 1 1 0 embeddingModel "first text".data 1,
   SearchResult.mk 2 1 0 embeddingModel "other text".data 2,
   SearchResult.mk 1 1 1 embeddingModel "later text".data 3]

/-- A store with card 1 at version 1 and no chunks yet, for editing. -/
def dbEditW : DB := DB.mk [MarkdownRow.mk 1 1 "a"] []

/-- A concrete stand-in for `CalculateFileHash` that separates the two
contents used by the edit witness. -/
def hashW (s : Str) : String := if s = "b".data then "B" else "A"

/-- Raw search rows where card 2's distance decoded to a non-float type. -/
def rawW : List RawResult :=
  [RawResult.mk 1 1 0 embeddingModel "first text".data (PGNum.f64 1),
   RawResult.mk 2 1 0 embeddingModel "other text".data (PGNum.other "string")]

/-! ### Helper lemmas -/

theorem foldl_max_spec (xs : List Int) (x : Int) :
    xs.foldl max x ∈ x :: xs ∧ ∀ w ∈ x :: xs, w ≤ xs.foldl max x := by
  induction xs generalizing x with
  | nil => simp
  | cons y ys ih =>
    have h := ih (max x y)
    constructor
    · rcases List.mem_cons.mp h.1 with hm | hm
      · rcases max_choice x y with hc | hc <;> rw [List.foldl_cons, hm, hc] <;> simp
      · simp [List.foldl_cons, List.mem_cons_of_mem _ (List.mem_cons_of_mem _ hm)]
    · intro w hw
      rcases List.mem_cons.mp hw with rfl | hw1
      · exact le_trans (le_max_left w y) (h.2 _ (List.mem_cons_self _ _))
      · rcases List.mem_cons.mp hw1 with rfl | hw2
        · exact le_trans (le_max_right x w) (h.2 _ (List.mem_cons_self _ _))
        · exact h.2 _ (List.mem_cons_of_mem _ hw2)

theorem max?_spec {l : List Int} {v : Int} (h : l.max? = some v) :
    v ∈ l ∧ ∀ w ∈ l, w ≤ v := by
  cases l with
  | nil => simp [List.max?] at h
  | cons x xs =>
    have hfold := foldl_max_spec xs x
    simp only [List.max?] at h
    injection h with h
    exact h ▸ hfold

theorem dedupByCard_sublist (l : List SearchResult) (seen : List Int) :
    (dedupByCard l seen).Sublist l := by
  induction l generalizing seen with
  | nil => simp [dedupByCard]
  | cons r rest ih =>
    simp only [dedupByCard]
    split
    · exact (ih seen).trans (List.sublist_cons_self r rest)
    · exact List.Sublist.cons₂ r (ih (r.CardID :: seen))

theorem not_mem_seen_of_mem_dedupByCard {l : List SearchResult} {seen : List Int}
    {r : SearchResult} (h : r ∈ dedupByCard l seen) : r.CardID ∉ seen := by
  induction l generalizing seen with
  | nil => simp [dedupByCard] at h
  | cons x rest ih =>
    by_cases hmem : x.CardID ∈ seen
    · rw [dedupByCard, if_pos hmem] at h
      exact ih h
    · rw [dedupByCard, if_neg hmem] at h
      rcases List.mem_cons.mp h with rfl | h1
      · exact hmem
      · intro hr
        exact ih h1 (List.mem_cons_of_mem _ hr)

theorem nodup_cards_dedupByCard (l : List SearchResult) (seen : List Int) :
    ((dedupByCard l seen).map SearchResult.CardID).Nodup := by
  induction l generalizing seen with
  | nil => simp [dedupByCard]
  | cons x rest ih =>
    by_cases hmem : x.CardID ∈ seen
    · rw [dedupByCard, if_pos hmem]
      exact ih seen
    · rw [dedupByCard, if_neg hmem]
      simp only [List.map_cons, List.nodup_cons]
      refine ⟨?_, ih (x.CardID :: seen)⟩
      intro hx
      rcases List.mem_map.mp hx with ⟨r, hr, hcard⟩
      exact not_mem_seen_of_mem_dedupByCard hr (by rw [hcard]; exact List.mem_cons_self _ _)

theorem cards_coverage_dedupByCard {l : List SearchResult} {seen : List Int} {c : Int}
    (hc : c ∈ l.map SearchResult.CardID) (hns : c ∉ seen) :
    c ∈ (dedupByCard l seen).map SearchResult.CardID := by
  induction l generalizing seen with
  | nil => simp at hc
  | cons x rest ih =>
    simp only [List.map_cons, List.mem_cons] at hc
    by_cases hmem : x.CardID ∈ seen
    · rw [dedupByCard, if_pos hmem]
      rcases hc with rfl | hc1
      · exact absurd hmem hns
      · exact ih hc1 hns
    · rw [dedupByCard, if_neg hmem]
      simp only [List.map_cons, List.mem_cons]
      rcases hc with rfl | hc1
      · exact Or.inl rfl
      · by_cases hx : c = x.CardID
        · exact Or.inl hx
        · exact Or.inr (ih hc1 (by simp [hx, hns]))

theorem find?_eq_of_mem_dedupByCard {l : List SearchResult} {seen : List Int}
    {r : SearchResult} (h : r ∈ dedupByCard l seen) :
    l.find? (fun x => x.CardID = r.CardID) = some r := by
  induction l generalizing seen with
  | nil => simp [dedupByCard] at h
  | cons x rest ih =>
    by_cases hmem : x.CardID ∈ seen
    · rw [dedupByCard, if_pos hmem] at h
      have hne : ¬ x.CardID = r.CardID := by
        intro he
        exact not_mem_seen_of_mem_dedupByCard h (he ▸ hmem)
      rw [List.find?_cons_of_neg _ (by simpa using hne)]
      exact ih h
    · rw [dedupByCard, if_neg hmem] at h
      rcases List.mem_cons.mp h with rfl | h1
      · exact List.find?_cons_of_pos _ (by simp)
      · have hnotin := not_mem_seen_of_mem_dedupByCard h1
        have hne : ¬ x.CardID = r.CardID := by
          intro he
          exact hnotin (by rw [← he]; exact List.mem_cons_self _ _)
        rw [List.find?_cons_of_neg _ (by simpa using hne)]
        exact ih h1

theorem find?_distance_le_of_sorted {p : SearchResult → Bool} {l : List SearchResult}
    (hs : l.Pairwise distLE) {a b : SearchResult}
    (hf : l.find? p = some a) (hb : b ∈ l) (hpb : p b = true) :
    a.Distance ≤ b.Distance := by
  induction l with
  | nil => simp at hf
  | cons x rest ih =>
    rcases List.pairwise_cons.mp hs with ⟨hx, hrest⟩
    by_cases hpx : p x = true
    · rw [List.find?_cons_of_pos _ hpx] at hf
      injection hf with hf
      subst hf
      rcases List.mem_cons.mp hb with rfl | hb1
      · exact le_refl _
      · exact hx b hb1
    · rw [List.find?_cons_of_neg _ hpx] at hf
      rcases List.mem_cons.mp hb with rfl | hb1
      · exact absurd hpb hpx
      · exact ih hrest hf hb1

theorem displayLoop_isSome_iff (l : List SearchResult) (seen : List Int) :
    (displayLoop l seen).isSome = true ↔
      ∀ r ∈ dedupByCard l seen, 10 ≤ r.Text.length := by
  induction l generalizing seen with
  | nil => simp [displayLoop, dedupByCard]
  | cons x rest ih =>
    by_cases hmem : x.CardID ∈ seen
    · rw [displayLoop, if_pos hmem, dedupByCard, if_pos hmem]
      exact ih seen
    · rw [displayLoop, if_neg hmem, dedupByCard, if_neg hmem]
      by_cases hlen : x.Text.length < 10
      · rw [firstTenRunes, if_pos hlen]
        simp only [Option.isSome_none, Bool.false_eq_true, false_iff]
        intro hall
        exact absurd (hall x (List.mem_cons_self _ _)) (by omega)
      · rw [firstTenRunes, if_neg hlen]
        have hmap : (Option.map (fun l => List.take 10 x.Text :: l)
            (displayLoop rest (x.CardID :: seen))).isSome
            = (displayLoop rest (x.CardID :: seen)).isSome := by
          cases displayLoop rest (x.CardID :: seen) <;> rfl
        rw [hmap, ih (x.CardID :: seen)]
        constructor
        · intro hall r hr
          rcases List.mem_cons.mp hr with rfl | hr1
          · omega
          · exact hall r hr1
        · intro hall r hr
          exact hall r (List.mem_cons_of_mem _ hr)

theorem splitSentences_eq_map_filter (t : Str) :
    splitSentences t =
      ((splitOnDelims t).map trimSpace).filter (fun s => !s.isEmpty) := by
  rw [splitSentences]
  induction splitOnDelims t with
  | nil => rfl
  | cons p ps ih =>
    by_cases hp : trimSpace p = []
    · simp [List.filterMap_cons, List.filter_cons, hp, ih]
    · simp only [List.filterMap_cons, List.filter_cons, List.map_cons, hp, if_neg hp]
      have : (trimSpace p).isEmpty = false := by
        cases h : trimSpace p with
        | nil => exact absurd h hp
        | cons a as => rfl
      simp [this, ih]

theorem length_splitSentences (t : Str) :
    (splitSentences t).length = sentenceCount t := by
  rw [splitSentences, sentenceCount]
  induction splitOnDelims t with
  | nil => rfl
  | cons p ps ih =>
    by_cases hp : trimSpace p = []
    · have : (trimSpace p).isEmpty = true := by rw [hp]; rfl
      simp [List.filterMap_cons, List.countP_cons, hp, this, ih]
    · have : (trimSpace p).isEmpty = false := by
        cases h : trimSpace p with
        | nil => exact absurd h hp
        | cons a as => rfl
      simp [List.filterMap_cons, List.countP_cons, hp, this, ih]

theorem length_walkChunks (bs : List MdBlock) :
    (walkChunks bs).length = countHeadings bs + totalSentences bs := by
  induction bs with
  | nil => simp [walkChunks, countHeadings, totalSentences]
  | cons b rest ih =>
    cases b with
    | heading t =>
      simp only [walkChunks, List.length_cons, ih, countHeadings, List.countP_cons,
        totalSentences, List.map_cons, List.sum_cons, isHeadingBlock]
      simp [countHeadings, totalSentences]
      omega
    | paragraph t =>
      simp only [walkChunks, List.length_append, ih, countHeadings, List.countP_cons,
        totalSentences, List.map_cons, List.sum_cons, isHeadingBlock,
        length_splitSentences]
      simp [countHeadings, totalSentences]
      omega

theorem length_uploadStoreRows (c v : Int) (i : Nat) (chunks : List Str) :
    (uploadStoreRows c v i chunks).length = chunks.countP (fun s => !isBlank s) := by
  induction chunks generalizing i with
  | nil => simp [uploadStoreRows]
  | cons s rest ih =>
    by_cases hb : isBlank s = true
    · simp [uploadStoreRows, hb, ih, List.countP_cons]
    · simp [uploadStoreRows, hb, ih, List.countP_cons]

theorem blank_not_mem_uploadStoreRows {c v : Int} {i : Nat} {chunks : List Str}
    {r : ChunkRow} (h : r ∈ uploadStoreRows c v i chunks) : isBlank r.text = false := by
  induction chunks generalizing i with
  | nil => simp [uploadStoreRows] at h
  | cons s rest ih =>
    by_cases hb : isBlank s = true
    · rw [uploadStoreRows, if_pos hb] at h
      exact ih h
    · rw [uploadStoreRows, if_neg hb] at h
      rcases List.mem_cons.mp h with rfl | h1
      · simpa using hb
      · exact ih h1

theorem mem_uploadStoreRows {c v : Int} {chunks : List Str} {t : Str}
    (i₀ : Nat) {i : Nat} (hg : chunks[i]? = some t) (hb : isBlank t = false) :
    ChunkRow.mk c v (Int.ofNat (i₀ + i)) embeddingModel t ∈ uploadStoreRows c v i₀ chunks := by
  induction chunks generalizing i₀ i with
  | nil => simp at hg
  | cons s rest ih =>
    cases i with
    | zero =>
      rw [List.getElem?_cons_zero] at hg
      injection hg with hg
      subst hg
      rw [uploadStoreRows, if_neg (by simp [hb])]
      simp
    | succ n =>
      rw [List.getElem?_cons_succ] at hg
      have hmem := ih (i₀ + 1) hg
      have harith : i₀ + (n + 1) = (i₀ + 1) + n := by omega
      rw [harith]
      by_cases hbs : isBlank s = true
      · rw [uploadStoreRows, if_pos hbs]
        exact hmem
      · rw [uploadStoreRows, if_neg hbs]
        exact List.mem_cons_of_mem _ hmem

theorem length_editStoreRows (c v : Int) (i : Nat) (chunks : List Str) :
    (editStoreRows c v i chunks).length = chunks.length := by
  induction chunks generalizing i with
  | nil => simp [editStoreRows]
  | cons s rest ih => simp [editStoreRows, ih]

theorem mem_editStoreRows {c v : Int} {chunks : List Str} {t : Str}
    (i₀ : Nat) {i : Nat} (hg : chunks[i]? = some t) :
    ChunkRow.mk c v (Int.ofNat (i₀ + i)) embeddingModel t ∈ editStoreRows c v i₀ chunks := by
  induction chunks generalizing i₀ i with
  | nil => simp at hg
  | cons s rest ih =>
    cases i with
    | zero =>
      rw [List.getElem?_cons_zero] at hg
      injection hg with hg
      subst hg
      rw [editStoreRows]
      simp
    | succ n =>
      rw [List.getElem?_cons_succ] at hg
      have hmem := ih (i₀ + 1) hg
      have harith : i₀ + (n + 1) = (i₀ + 1) + n := by omega
      rw [harith, editStoreRows]
      exact List.mem_cons_of_mem _ hmem

/-! ### Claim theorems -/

/-- C1: for every stored state and every query distance, every row returned
by `SearchLatestDistance` carries its card's maximum version in
markdown_files: its version is a stored version of that card and is at
least every stored version, so no chunk of a non-latest version ever
appears (whatever its distance) and a card with no markdown_files row is
excluded entirely. -/
theorem c1_search_considers_only_latest_versions
    (db : DB) (dist : ChunkRow → ℚ) (limit : Nat) (r : SearchResult)
    (hr : r ∈ SearchLatestDistance db dist limit) :
    maxVer db.markdown_files r.CardID = some r.Ver ∧
    r.Ver ∈ cardVersions db.markdown_files r.CardID ∧
    ∀ w ∈ cardVersions db.markdown_files r.CardID, w ≤ r.Ver := by
  simp only [SearchLatestDistance] at hr
  have h1 := List.mem_of_mem_take hr
  have h2 := (List.mem_insertionSort distLE).mp h1
  rcases List.mem_map.mp h2 with ⟨ch, hch, heq⟩
  rcases List.mem_filter.mp hch with ⟨_, hpred⟩
  have hmax : maxVer db.markdown_files ch.card_id = some ch.ver :=
    of_decide_eq_true hpred
  have hmax' : (cardVersions db.markdown_files ch.card_id).max? = some ch.ver := hmax
  subst heq
  exact ⟨hmax, (max?_spec hmax').1, (max?_spec hmax').2⟩

/-- Witness for C1: a concrete one-chunk store where the returned row's
version is the card's maximum. -/
theorem c1_search_considers_only_latest_versions_witness :
    maxVer dbOneChunk.markdown_files 1 = some 1 ∧
    (1 : Int) ∈ cardVersions dbOneChunk.markdown_files 1 ∧
    ∀ w ∈ cardVersions dbOneChunk.markdown_files 1, w ≤ 1 :=
  c1_search_considers_only_latest_versions dbOneChunk (fun _ => 0) 10
    (SearchResult.mk 1 1 0 embeddingModel "some text!".data 0) (by decide)

/-- C2: on a distance-ascending raw hit list the per-card deduplication is a
sublist that stays ascending, contains every card exactly once, keeps for
each emitted card its first (closest) raw occurrence together with that
occurrence's distance, never exceeds the raw length (hence at most topK),
and on the spec's fixture [(cardA,0.1),(cardB,0.2),(cardA,0.3)] yields
exactly [(cardA,0.1),(cardB,0.2)]. -/
theorem c2_dedup_first_occurrence_per_card
    (l : List SearchResult) (hs : List.Sorted distLE l) :
    (dedupByCard l []).Sublist l ∧
    List.Sorted distLE (dedupByCard l []) ∧
    ((dedupByCard l []).map SearchResult.CardID).Nodup ∧
    (∀ c, c ∈ l.map SearchResult.CardID → c ∈ (dedupByCard l []).map SearchResult.CardID) ∧
    (∀ r ∈ dedupByCard l [], l.find? (fun x => x.CardID = r.CardID) = some r) ∧
    (dedupByCard l []).length ≤ l.length ∧
    dedupByCard exampleHits [] = exampleRanked := by
  have hsub := dedupByCard_sublist l []
  refine ⟨hsub, List.Pairwise.sublist hsub hs, nodup_cards_dedupByCard l [], ?_, ?_,
    hsub.length_le, ?_⟩
  · intro c hc
    exact cards_coverage_dedupByCard hc (by simp)
  · intro r hr
    exact find?_eq_of_mem_dedupByCard hr
  · simp [dedupByCard, exampleHits, exampleRanked]

/-- Witness for C2 on a concrete ascending hit list with a duplicated card. -/
theorem c2_dedup_first_occurrence_per_card_witness :
    (dedupByCard sortedHitsW []).Sublist sortedHitsW ∧
    List.Sorted distLE (dedupByCard sortedHitsW []) ∧
    ((dedupByCard sortedHitsW []).map SearchResult.CardID).Nodup ∧
    (∀ c, c ∈ sortedHitsW.map SearchResult.CardID →
      c ∈ (dedupByCard sortedHitsW []).map SearchResult.CardID) ∧
    (∀ r ∈ dedupByCard sortedHitsW [],
      sortedHitsW.find? (fun x => x.CardID = r.CardID) = some r) ∧
    (dedupByCard sortedHitsW []).length ≤ sortedHitsW.length ∧
    dedupByCard exampleHits [] = exampleRanked :=
  c2_dedup_first_occurrence_per_card sortedHitsW (by decide)

/-- C3 counterexample: a store whose only chunk sits at a non-latest version
(markdown_files already has a higher version for the card) has a non-zero
chunk count, yet lookup fails with the no-matching-results error instead of
returning at least one result. -/
theorem c3_counterexample_stale_chunk_store :
    dbStaleChunkOnly.chunks.length ≠ 0 ∧
    lookupSearch dbStaleChunkOnly (fun _ => 0) = .error .noMatch :=
  ⟨by decide, rfl⟩

/-- C3 (amended): with no stored chunk, lookup fails with the empty-corpus
error; whenever some stored chunk sits at its card's maximum version,
lookup succeeds with a non-empty result list; and a successful lookup never
carries an empty result list (zero-matched success is impossible). -/
theorem c3_empty_corpus_error_and_nonempty_success
    (db : DB) (dist : ChunkRow → ℚ) :
    (db.chunks = [] → lookupSearch db dist = .error .emptyCorpus) ∧
    ((∃ ch ∈ db.chunks, maxVer db.markdown_files ch.card_id = some ch.ver) →
      ∃ rs, lookupSearch db dist = .ok rs ∧ rs ≠ []) ∧
    (∀ rs, lookupSearch db dist = .ok rs → rs ≠ []) := by
  refine ⟨?_, ?_, ?_⟩
  · intro h
    simp [lookupSearch, h]
  · rintro ⟨ch, hch, hmax⟩
    have hne : ¬ db.chunks.length = 0 := by
      intro h0
      rw [List.length_eq_zero] at h0
      simp [h0] at hch
    have hcand : ch ∈ db.chunks.filter
        (fun c => maxVer db.markdown_files c.card_id = some c.ver) :=
      List.mem_filter.mpr ⟨hch, by simp [hmax]⟩
    have hrsne : ¬ (SearchLatestDistance db dist 10).length = 0 := by
      simp only [SearchLatestDistance]
      rw [List.length_take, (List.perm_insertionSort distLE _).length_eq, List.length_map]
      have hpos : 0 < (db.chunks.filter
          (fun c => maxVer db.markdown_files c.card_id = some c.ver)).length :=
        List.length_pos.mpr (List.ne_nil_of_mem hcand)
      omega
    refine ⟨SearchLatestDistance db dist 10, ?_, fun hnil => hrsne (by rw [hnil]; rfl)⟩
    rw [lookupSearch, if_neg hne, if_neg hrsne]
  · intro rs hok
    rw [lookupSearch] at hok
    by_cases h0 : db.chunks.length = 0
    · rw [if_pos h0] at hok
      exact absurd hok (by simp)
    · rw [if_neg h0] at hok
      by_cases h1 : (SearchLatestDistance db dist 10).length = 0
      · rw [if_pos h1] at hok
        exact absurd hok (by simp)
      · rw [if_neg h1] at hok
        injection hok with hok
        intro hnil
        rw [hok, hnil] at h1
        exact h1 rfl

/-- Witness for C3 (amended) at concrete stores: the empty store yields the
empty-corpus error and a store with one latest-version chunk succeeds with
a non-empty result list. -/
theorem c3_empty_corpus_error_and_nonempty_success_witness :
    lookupSearch (DB.mk [] []) (fun _ => 0) = .error .emptyCorpus ∧
    (∃ rs, lookupSearch dbOneChunk (fun _ => 0) = .ok rs ∧ rs ≠ []) :=
  ⟨(c3_empty_corpus_error_and_nonempty_success (DB.mk [] []) (fun _ => 0)).1 rfl,
   (c3_empty_corpus_error_and_nonempty_success dbOneChunk (fun _ => 0)).2.1
     ⟨ChunkRow.mk 1 1 0 embeddingModel "some text!".data, by decide, by decide⟩⟩

/-- C4 (code evaluated at the failing input): flat/vision chunking of
"Hello world. Nice day!" returns only the two sentences — element 0 is not
the whole input and the chunk count is 2, not 1 + 2 — because the vision
branch of ExtractChunks overwrites the chunk slice that already held the
whole document. -/
theorem c4_vision_chunking_drops_whole_document :
    ExtractChunks "Hello world. Nice day!".data "vision" (fun _ => []) =
      ["Hello world".data, "Nice day".data] ∧
    (ExtractChunks "Hello world. Nice day!".data "vision" (fun _ => [])).head? ≠
      some "Hello world. Nice day!".data ∧
    (ExtractChunks "Hello world. Nice day!".data "vision" (fun _ => [])).length = 2 :=
  ⟨by decide, by decide, by decide⟩

/-- C5: structural ("ocr") chunking of any content whose parse yields the
blocks `bs` produces exactly 1 + (number of headings) + (total
non-blank-after-trim sentences over the paragraphs) chunks, and sentence
splitting is exactly: divide at the delimiters . ! ? 。 ！ ？, trim each
piece, drop the pieces that became empty. -/
theorem c5_structural_chunk_count (content : Str) (bs : List MdBlock) :
    (ExtractChunks content "ocr" (fun _ => bs)).length
      = 1 + countHeadings bs + totalSentences bs ∧
    ∀ t, splitSentences t =
      ((splitOnDelims t).map trimSpace).filter (fun s => !s.isEmpty) := by
  constructor
  · simp [ExtractChunks, length_walkChunks]
    omega
  · exact splitSentences_eq_map_filter

/-- C6: when the card has a latest version, editImpl with equal hashes of
the downloaded latest content and the edited content succeeds with the
store unchanged (no new markdown_files row, no new chunk rows), and with
different hashes succeeds having appended exactly one markdown_files row at
version latest + 1 together with the new version's chunk rows, leaving
every previously stored row untouched. -/
theorem c6_edit_hash_gate
    (db : DB) (cardID : Int) (downloaded edited : Str)
    (hash : Str → String) (parse : Str → List MdBlock) (latest : Int)
    (hl : GetLatestMarkdownVersion db cardID = some latest) :
    (hash downloaded = hash edited →
      editImpl db cardID downloaded edited hash parse = .ok db) ∧
    (hash downloaded ≠ hash edited →
      editImpl db cardID downloaded edited hash parse = .ok (DB.mk
        (db.markdown_files ++ [MarkdownRow.mk cardID (latest + 1) (hash edited)])
        (db.chunks ++ editStoreRows cardID (latest + 1) 0
          (ExtractChunksEdit edited parse)))) := by
  constructor
  · intro he
    simp only [editImpl, hl, if_pos he]
  · intro he
    simp only [editImpl, hl, if_neg he]

/-- Witness for C6: a concrete store edited once with identical content and
once with changed content. -/
theorem c6_edit_hash_gate_witness :
    editImpl dbEditW 1 "a".data "a".data hashW (fun _ => []) = .ok dbEditW ∧
    editImpl dbEditW 1 "a".data "b".data hashW (fun _ => []) = .ok (DB.mk
      (dbEditW.markdown_files ++ [MarkdownRow.mk 1 (1 + 1) (hashW "b".data)])
      (dbEditW.chunks ++ editStoreRows 1 (1 + 1) 0
        (ExtractChunksEdit "b".data (fun _ => [])))) :=
  ⟨(c6_edit_hash_gate dbEditW 1 "a".data "a".data hashW (fun _ => []) 1 (by decide)).1
      (by decide),
   (c6_edit_hash_gate dbEditW 1 "a".data "b".data hashW (fun _ => []) 1 (by decide)).2
      (by decide)⟩

/-- C7 counterexample: the edit-path storage loop stores a row for a
whitespace-only chunk — the claimed skip of blank chunks holds only on the
upload path. -/
theorem c7_counterexample_edit_stores_blank_chunk :
    isBlank " ".data = true ∧
    editStoreRows 7 2 0 ["some chunk".data, " ".data] =
      [ChunkRow.mk 7 2 0 embeddingModel "some chunk".data,
       ChunkRow.mk 7 2 1 embeddingModel " ".data] :=
  ⟨by decide, by decide⟩

/-- C7 (amended): the initial-upload storage loop persists exactly one row
per non-blank chunk — every stored row is non-blank and every non-blank
chunk is stored at its original index, blanks skipped silently — while the
edit storage loop persists one row for every chunk, blanks included. -/
theorem c7_upload_filters_blanks_edit_does_not
    (c v : Int) (chunks : List Str) :
    ((uploadStoreRows c v 0 chunks).length = chunks.countP (fun s => !isBlank s)) ∧
    (∀ r ∈ uploadStoreRows c v 0 chunks, isBlank r.text = false) ∧
    (∀ i t, chunks[i]? = some t → isBlank t = false →
      ChunkRow.mk c v (Int.ofNat i) embeddingModel t ∈ uploadStoreRows c v 0 chunks) ∧
    ((editStoreRows c v 0 chunks).length = chunks.length) ∧
    (∀ i t, chunks[i]? = some t →
      ChunkRow.mk c v (Int.ofNat i) embeddingModel t ∈ editStoreRows c v 0 chunks) := by
  refine ⟨length_uploadStoreRows c v 0 chunks, ?_, ?_,
    length_editStoreRows c v 0 chunks, ?_⟩
  · intro r hr
    exact blank_not_mem_uploadStoreRows hr
  · intro i t hg hb
    simpa using mem_uploadStoreRows 0 hg hb
  · intro i t hg
    simpa using mem_editStoreRows 0 hg

/-- Witness for C7 (amended) on a concrete chunk list with one blank. -/
theorem c7_upload_filters_blanks_edit_does_not_witness :
    (uploadStoreRows 7 1 0 ["some chunk".data, " ".data]).length = 1 ∧
    ChunkRow.mk 7 1 0 embeddingModel "some chunk".data ∈
      uploadStoreRows 7 1 0 ["some chunk".data, " ".data] ∧
    (editStoreRows 7 1 0 ["some chunk".data, " ".data]).length = 2 ∧
    ChunkRow.mk 7 1 1 embeddingModel " ".data ∈
      editStoreRows 7 1 0 ["some chunk".data, " ".data] := by
  have h := c7_upload_filters_blanks_edit_does_not 7 1 ["some chunk".data, " ".data]
  exact ⟨h.1.trans (by decide), h.2.2.1 0 "some chunk".data (by decide) (by decide),
    h.2.2.2.1.trans (by decide), h.2.2.2.2 1 " ".data (by decide)⟩

/-- C8 (code evaluated at the failing input): when every OCR fetch fails,
the poll loop exhausts its retries with `attempt` ending at 0, so the
`attempt < 0` guard cannot fire and AzureOCR returns the empty string with
no error — a silent success instead of the terminal failure the spec
requires. -/
theorem c8_retry_exhaustion_is_silent_success :
    pollLoop (fun _ => .error "ocr failed") 0 3 = (.error "ocr failed", 0) ∧
    AzureOCR (fun _ => .error "ocr failed") = .ok [] :=
  ⟨by simp [pollLoop], by simp [AzureOCR, pollLoop]⟩

/-- C9: the lookup display completes exactly when every emitted
(first-per-card) result has at least 10 runes of chunk text; a result whose
stored chunk text is shorter — such as the heading chunk "Title", which the
structural walk does produce — makes the display panic instead of
returning. -/
theorem c9_display_panics_on_short_chunk_text (rs : List SearchResult) :
    ((displayLoop rs []).isSome = true ↔
      ∀ r ∈ dedupByCard rs [], 10 ≤ r.Text.length) ∧
    displayLoop [SearchResult.mk 2 1 1 embeddingModel "Title".data 0] [] = none ∧
    "Title".data ∈ walkChunks
      [MdBlock.heading "Title".data, MdBlock.paragraph "Hello world. Nice day!".data] :=
  ⟨displayLoop_isSome_iff rs [], by decide, by decide⟩

/-- Witness for C9: a 10-rune-or-longer emitted text displays, the 5-rune
heading chunk "Title" panics. -/
theorem c9_display_panics_on_short_chunk_text_witness :
    (displayLoop [SearchResult.mk 2 1 1 embeddingModel "a text of length 10+".data 0]
      []).isSome = true ∧
    displayLoop [SearchResult.mk 2 1 1 embeddingModel "Title".data 0] [] = none :=
  ⟨(c9_display_panics_on_short_chunk_text
      [SearchResult.mk 2 1 1 embeddingModel "a text of length 10+".data 0]).1.mpr
      (by decide),
   (c9_display_panics_on_short_chunk_text []).2.1⟩

/-- C10: the distance type switch never fails — conversion keeps every raw
row — and when some row's distance decodes to neither float32 nor float64
it is replaced by 0, so (every properly decoded distance being
non-negative) that row's card is emitted by the deduplication with
representative score 0, the closest possible match. -/
theorem c10_unknown_distance_type_becomes_zero
    (raw : List RawResult) (bad : RawResult) (tag : String)
    (hnn : ∀ r ∈ raw, 0 ≤ decodeDistance r.Distance)
    (hbad : bad ∈ raw) (htag : bad.Distance = PGNum.other tag) :
    (convertResults raw).length = raw.length ∧
    ∃ r ∈ dedupByCard (sortResults (convertResults raw)) [],
      r.CardID = bad.CardID ∧ r.Distance = 0 := by
  refine ⟨by simp [convertResults], ?_⟩
  have hbad' : SearchResult.mk bad.CardID bad.Ver bad.Idx bad.Model bad.Text 0
      ∈ convertResults raw := by
    have h0 : SearchResult.mk bad.CardID bad.Ver bad.Idx bad.Model bad.Text
        (decodeDistance bad.Distance) ∈ convertResults raw :=
      List.mem_map_of_mem
        (fun r => SearchResult.mk r.CardID r.Ver r.Idx r.Model r.Text
          (decodeDistance r.Distance)) hbad
    rw [htag] at h0
    exact h0
  have hsortmem : SearchResult.mk bad.CardID bad.Ver bad.Idx bad.Model bad.Text 0
      ∈ sortResults (convertResults raw) := by
    rw [sortResults]
    exact (List.mem_insertionSort distLE).mpr hbad'
  have hcard : bad.CardID ∈
      (dedupByCard (sortResults (convertResults raw)) []).map SearchResult.CardID := by
    apply cards_coverage_dedupByCard
    · exact List.mem_map.mpr
        ⟨SearchResult.mk bad.CardID bad.Ver bad.Idx bad.Model bad.Text 0, hsortmem, rfl⟩
    · simp
  rcases List.mem_map.mp hcard with ⟨r, hr, hrcard⟩
  refine ⟨r, hr, hrcard, ?_⟩
  have hfind := find?_eq_of_mem_dedupByCard hr
  have hsorted : (sortResults (convertResults raw)).Pairwise distLE := by
    rw [sortResults]
    exact List.sorted_insertionSort distLE _
  have hle : r.Distance ≤
      (SearchResult.mk bad.CardID bad.Ver bad.Idx bad.Model bad.Text 0).Distance :=
    find?_distance_le_of_sorted hsorted hfind hsortmem (by simp [hrcard])
  have hrmem : r ∈ convertResults raw := by
    have h1 := (dedupByCard_sublist (sortResults (convertResults raw)) []).subset hr
    rw [sortResults] at h1
    exact (List.mem_insertionSort distLE).mp h1
  rcases List.mem_map.mp hrmem with ⟨rr, hrr, heq⟩
  have hge : 0 ≤ r.Distance := by
    rw [← heq]
    exact hnn rr hrr
  exact le_antisymm hle hge

/-- Witness for C10 at a concrete raw result set with one non-float
distance. -/
theorem c10_unknown_distance_type_becomes_zero_witness :
    (convertResults rawW).length = rawW.length ∧
    ∃ r ∈ dedupByCard (sortResults (convertResults rawW)) [],
      r.CardID = 2 ∧ r.Distance = 0 :=
  c10_unknown_distance_type_becomes_zero rawW
    (RawResult.mk 2 1 0 embeddingModel "other text".data (PGNum.other "string"))
    "string" (by decide) (by decide) rfl

end Umesao
